import Mathlib

/-!
Verification of the recast cache/bot core: a shallow embedding of the
circuit breaker, the fallback cache, the resilient cache facade and the
bot's per-guild queue machinery, together with theorems checking the
specification's claims about them.

Time is modelled as a natural number of abstract ticks (the code uses
`time.Time` / `time.Duration`); byte slices are `List Nat`; Go maps are
association lists with unique keys; each method that reads the clock takes
the current instant `now` as an explicit argument.
-/

namespace Recast

/-- Byte slices (`[]byte`). -/
abbrev Bytes := List Nat

/-! ## Circuit breaker (`CircuitBreaker` in the cache package)

Fields and transitions mirror `breaker.go`: `Allow`, `RecordSuccess`,
`RecordFailure`. -/

inductive CircuitState where
  | closed
  | opened
  | halfOpen
deriving DecidableEq, Repr

structure CircuitBreaker where
  state : CircuitState
  failures : Nat
  successes : Nat
  lastFailure : Nat
  threshold : Nat
  resetTimeout : Nat
  halfOpenMax : Nat
  lastStateChange : Nat
deriving DecidableEq, Repr

def newCircuitBreaker (threshold resetTimeout : Nat) : CircuitBreaker :=
  { state := .closed, failures := 0, successes := 0, lastFailure := 0,
    threshold := threshold, resetTimeout := resetTimeout,
    halfOpenMax := 3, lastStateChange := 0 }

/-- `Allow()`: returns whether a remote call may proceed, possibly moving
the breaker from Open to HalfOpen when the reset timeout has elapsed
(`time.Since(cb.lastFailure) > cb.resetTimeout`). -/
def CircuitBreaker.allow (cb : CircuitBreaker) (now : Nat) :
    Bool × CircuitBreaker :=
  match cb.state with
  | .closed => (true, cb)
  | .opened =>
    if now - cb.lastFailure > cb.resetTimeout then
      (true, { cb with state := .halfOpen, successes := 0,
                       lastStateChange := now })
    else
      (false, cb)
  | .halfOpen => (decide (cb.successes < cb.halfOpenMax), cb)

/-- `RecordSuccess()`. -/
def CircuitBreaker.recordSuccess (cb : CircuitBreaker) (now : Nat) :
    CircuitBreaker :=
  match cb.state with
  | .closed => { cb with failures := 0 }
  | .opened => cb
  | .halfOpen =>
    if cb.successes + 1 ≥ cb.halfOpenMax then
      { cb with successes := cb.successes + 1, state := .closed,
                failures := 0, lastStateChange := now }
    else
      { cb with successes := cb.successes + 1 }

/-- `RecordFailure()`: always stamps `lastFailure := now` first, then
branches on the state. -/
def CircuitBreaker.recordFailure (cb : CircuitBreaker) (now : Nat) :
    CircuitBreaker :=
  let cb := { cb with lastFailure := now }
  match cb.state with
  | .closed =>
    if cb.failures + 1 ≥ cb.threshold then
      { cb with failures := cb.failures + 1, state := .opened,
                lastStateChange := now }
    else
      { cb with failures := cb.failures + 1 }
  | .opened => cb
  | .halfOpen => { cb with state := .opened, lastStateChange := now }

/-- `IsOpen()`. -/
def CircuitBreaker.isOpen (cb : CircuitBreaker) : Bool :=
  cb.state == .opened

/-- A sequence of `RecordFailure` calls at the given instants. -/
def CircuitBreaker.afterFailures (cb : CircuitBreaker) (ts : List Nat) :
    CircuitBreaker :=
  ts.foldl (fun c t => c.recordFailure t) cb

/-- A sequence of `RecordSuccess` calls at the given instants. -/
def CircuitBreaker.afterSuccesses (cb : CircuitBreaker) (ts : List Nat) :
    CircuitBreaker :=
  ts.foldl (fun c t => c.recordSuccess t) cb

/-! ## Fallback cache (`FallbackCache` in the cache package)

The Go map `map[string]fallbackEntry` is an association list with unique
keys; `maxSize` is the configured capacity. -/

structure FallbackEntry where
  data : Bytes
  expiresAt : Nat
deriving DecidableEq, Repr

abbrev Entries := List (String × FallbackEntry)

/-- Go map lookup `m[key]`. -/
def lookupKey {β : Type} (l : List (String × β)) (key : String) : Option β :=
  match l with
  | [] => none
  | (k, e) :: rest => if k = key then some e else lookupKey rest key

/-- Go map assignment `m[key] = e` (replace in place or add). -/
def insertKey {β : Type} (l : List (String × β)) (key : String) (e : β) :
    List (String × β) :=
  match l with
  | [] => [(key, e)]
  | (k, e') :: rest =>
    if k = key then (key, e) :: rest else (k, e') :: insertKey rest key e

/-- Go map deletion `delete(m, key)`. -/
def eraseKey {β : Type} (l : List (String × β)) (key : String) :
    List (String × β) :=
  match l with
  | [] => []
  | (k, e) :: rest =>
    if k = key then eraseKey rest key else (k, e) :: eraseKey rest key

/-- The keys of a Go map are pairwise distinct. -/
def keysNodup {β : Type} (l : List (String × β)) : Prop :=
  (l.map Prod.fst).Nodup

instance {β : Type} : DecidablePred (keysNodup (β := β)) := fun l => by
  unfold keysNodup
  infer_instance

/-- The loop body of `evictOldest`: fold over the entries carrying
`oldestKey` (initially `""`) and `oldestTime`, replacing the candidate
when `oldestKey == ""` or the entry expires strictly earlier. -/
def findOldest (l : Entries) (oldestKey : String) (oldestTime : Nat) :
    String :=
  match l with
  | [] => oldestKey
  | (k, e) :: rest =>
    if oldestKey = "" ∨ e.expiresAt < oldestTime then
      findOldest rest k e.expiresAt
    else
      findOldest rest oldestKey oldestTime

/-- `evictOldest`: scan for the entry with the earliest expiry and delete
it — unless the chosen key is the sentinel `""`, in which case nothing is
deleted. -/
def evictOldest (l : Entries) : Entries :=
  let oldestKey := findOldest l "" 0
  if oldestKey ≠ "" then eraseKey l oldestKey else l

structure FallbackCache where
  entries : Entries
  maxSize : Nat
deriving DecidableEq, Repr

def newFallbackCache (maxSize : Nat) : FallbackCache :=
  { entries := [], maxSize := maxSize }

/-- `Get`: absent, or expired (`time.Now().After(entry.expiresAt)`, i.e.
`now > expiresAt`), reads as not-found; otherwise the stored bytes. -/
def FallbackCache.get (fc : FallbackCache) (key : String) (now : Nat) :
    Option Bytes :=
  match lookupKey fc.entries key with
  | none => none
  | some e => if now > e.expiresAt then none else some e.data

/-- `Get` in state-passing form: the method takes only a read lock and
performs no write to the receiver, so the outgoing state is the incoming
one. -/
def FallbackCache.getM (fc : FallbackCache) (key : String) (now : Nat) :
    Option Bytes × FallbackCache :=
  (fc.get key now, fc)

/-- `Set`: evict (at most) one entry when already at/above capacity, then
store the entry with absolute expiry `now + ttl`. -/
def FallbackCache.set (fc : FallbackCache) (key : String) (data : Bytes)
    (ttl : Nat) (now : Nat) : FallbackCache :=
  let entries :=
    if fc.entries.length ≥ fc.maxSize then evictOldest fc.entries
    else fc.entries
  { fc with entries := insertKey entries key ⟨data, now + ttl⟩ }

/-- `Delete`. -/
def FallbackCache.del (fc : FallbackCache) (key : String) : FallbackCache :=
  { fc with entries := eraseKey fc.entries key }

/-- One pass of the background `cleanup` sweep: drop every entry whose
expiry is strictly in the past. -/
def FallbackCache.sweep (fc : FallbackCache) (now : Nat) : FallbackCache :=
  { fc with entries := fc.entries.filter (fun p => ¬ now > p.2.expiresAt) }

/-- An abstract client-visible operation on the fallback store. -/
inductive FcOp where
  | set (key : String) (data : Bytes) (ttl : Nat) (now : Nat)
  | del (key : String)
  | sweep (now : Nat)
deriving DecidableEq, Repr

def FallbackCache.apply (fc : FallbackCache) : FcOp → FallbackCache
  | .set key data ttl now => fc.set key data ttl now
  | .del key => fc.del key
  | .sweep now => fc.sweep now

def FallbackCache.run (fc : FallbackCache) (ops : List FcOp) :
    FallbackCache :=
  ops.foldl FallbackCache.apply fc

/-- The key a `set` operation uses is non-empty (other operations are
unconstrained). -/
def FcOp.keyOk : FcOp → Prop
  | .set key _ _ _ => key ≠ ""
  | .del _ => True
  | .sweep _ => True

instance : DecidablePred FcOp.keyOk := fun op => by
  cases op <;> simp [FcOp.keyOk] <;> infer_instance

/-- All keys the `set` operations in the list use are non-empty. -/
def setKeysNonempty (ops : List FcOp) : Prop :=
  ∀ op ∈ ops, op.keyOk

instance : DecidablePred setKeysNonempty := fun ops => by
  unfold setKeysNonempty
  infer_instance

/-! ## Resilient cache facade (`Cache` in the cache package)

The remote redis client is a collaborator; each call site receives the
remote outcome as an explicit argument (ok / key-absent `redis.Nil` /
other error), since the client's behaviour is outside the program. -/

def defaultExpiration : Nat := 168 * 60 * 60

def fallbackMaxSize : Nat := 10000

def cbThreshold : Nat := 5

def cbResetTimeout : Nat := 30

structure CacheState where
  cb : CircuitBreaker
  fallback : FallbackCache
deriving DecidableEq, Repr

def newCacheState : CacheState :=
  { cb := newCircuitBreaker cbThreshold cbResetTimeout,
    fallback := newFallbackCache fallbackMaxSize }

inductive CacheError where
  | breakerNoFallback
  | remote
deriving DecidableEq, Repr

/-- Outcome of the remote client's `Get`. -/
inductive RemoteGet where
  | ok (data : Bytes)
  | nilErr
  | failErr
deriving DecidableEq, Repr

/-- `Cache.Get`: breaker-gated remote read with fallback. -/
def CacheState.get (st : CacheState) (key : String) (now : Nat)
    (remote : RemoteGet) : Except CacheError Bytes × CacheState :=
  let (allowed, cb) := st.cb.allow now
  let st := { st with cb := cb }
  if ¬ allowed then
    match st.fallback.get key now with
    | some data => (.ok data, st)
    | none => (.error .breakerNoFallback, st)
  else
    match remote with
    | .ok data =>
      (.ok data,
       { st with cb := cb.recordSuccess now,
                 fallback := st.fallback.set key data defaultExpiration now })
    | .nilErr =>
      match st.fallback.get key now with
      | some data => (.ok data, st)
      | none => (.error .remote, st)
    | .failErr =>
      let st := { st with cb := cb.recordFailure now }
      match st.fallback.get key now with
      | some data => (.ok data, st)
      | none => (.error .remote, st)

/-- `Cache.Set`: write the fallback first (with the default expiration when
`expiration == 0`), then attempt the remote write only if the breaker
allows it; `remoteFails` is the remote client's outcome. -/
def CacheState.set (st : CacheState) (key : String) (data : Bytes)
    (expiration : Nat) (now : Nat) (remoteFails : Bool) :
    Except CacheError Unit × CacheState :=
  let expiration := if expiration = 0 then defaultExpiration else expiration
  let st := { st with fallback := st.fallback.set key data expiration now }
  let (allowed, cb) := st.cb.allow now
  let st := { st with cb := cb }
  if ¬ allowed then
    (.ok (), st)
  else if remoteFails then
    (.error .remote, { st with cb := cb.recordFailure now })
  else
    (.ok (), { st with cb := cb.recordSuccess now })

/-! ## Bot guild-queue machinery (`internal/utils`)

A `GuildContext` owns a cancellable context and two bounded channels; a
channel is a queue list plus its capacity.  The registry
`map[string]*GuildContext` is again an association list. -/

structure GuildEvent where
  id : Nat
deriving DecidableEq, Repr

structure GuildContext where
  cancelled : Bool
  events : List GuildEvent
  eventsCap : Nat
  relay : List String
  relayCap : Nat
deriving DecidableEq, Repr

abbrev Registry := List (String × GuildContext)

/-- `ensure`: get-or-create; a freshly created context carries
`make(chan GuildEvent, 1000)` and `make(chan string, 500)`. -/
def Bot.ensure (contexts : Registry) (guildID : String) :
    GuildContext × Registry :=
  match lookupKey contexts guildID with
  | some c => (c, contexts)
  | none =>
    let c : GuildContext :=
      { cancelled := false, events := [], eventsCap := 1000,
        relay := [], relayCap := 500 }
    (c, insertKey contexts guildID c)

/-- `register`: cancel any existing context and unconditionally install a
fresh one whose channels are created with `make(chan GuildEvent)` and
`make(chan string)` — unbuffered, i.e. capacity 0. -/
def Bot.register (contexts : Registry) (guildID : String) : Registry :=
  let c : GuildContext :=
    { cancelled := false, events := [], eventsCap := 0,
      relay := [], relayCap := 0 }
  insertKey contexts guildID c

/-- Outcome of `enqueue` (the function itself returns nothing; these are
the branches it can take, each at most logged). -/
inductive EnqueueOutcome where
  | delivered
  | droppedCancelled
  | droppedFull
  | droppedUnknown
deriving DecidableEq, Repr

/-- The `select` in `enqueue`: the send case is ready when the buffered
channel has room, the done case when the context is cancelled; when both
are ready Go picks one pseudo-randomly (`race`), and `default` fires only
when neither is ready. -/
def selectEnqueue (c : GuildContext) (event : GuildEvent) (race : Bool) :
    EnqueueOutcome × GuildContext :=
  let sendReady := c.events.length < c.eventsCap
  let doneReady := c.cancelled
  if sendReady ∧ doneReady then
    if race then (.delivered, { c with events := c.events ++ [event] })
    else (.droppedCancelled, c)
  else if sendReady then
    (.delivered, { c with events := c.events ++ [event] })
  else if doneReady then
    (.droppedCancelled, c)
  else
    (.droppedFull, c)

/-- `Bot.enqueue`: look the guild up under the read lock, then perform the
non-blocking `select`; an unknown guild is logged and the event dropped. -/
def Bot.enqueue (contexts : Registry) (guildID : String)
    (event : GuildEvent) (race : Bool) : EnqueueOutcome × Registry :=
  match lookupKey contexts guildID with
  | none => (.droppedUnknown, contexts)
  | some c =>
    let (out, c') := selectEnqueue c event race
    (out, insertKey contexts guildID c')

/-- The draining loop at the top of each `monitor` tick: up to 500
iterations, each doing a non-blocking receive from the events channel and
exiting at the first empty receive. Returns the remaining queue and the
number of events removed (`channelSize`). -/
def drainLoop : Nat → List GuildEvent → List GuildEvent × Nat
  | 0, evs => (evs, 0)
  | _ + 1, [] => ([], 0)
  | n + 1, _ :: rest =>
    let (r, c) := drainLoop n rest
    (r, c + 1)

/-- One tick of `Bot.monitor` as it acts on the guild context: the
draining loop runs, then only lengths and capacities are read for the
fill-percentage warnings. -/
def monitorTick (c : GuildContext) : GuildContext :=
  { c with events := (drainLoop 500 c.events).1 }

/-! ## Association-list lemmas -/

variable {β : Type}

lemma lookupKey_insertKey_self (l : List (String × β)) (key : String)
    (e : β) : lookupKey (insertKey l key e) key = some e := by
  induction l with
  | nil => simp [insertKey, lookupKey]
  | cons hd rest ih =>
    obtain ⟨a, b⟩ := hd
    by_cases hak : a = key
    · simp [insertKey, hak, lookupKey]
    · simp [insertKey, hak, lookupKey, ih]

lemma lookupKey_insertKey_ne (l : List (String × β)) {key' key : String}
    (e : β) (h : key' ≠ key) :
    lookupKey (insertKey l key' e) key = lookupKey l key := by
  induction l with
  | nil => simp [insertKey, lookupKey, h]
  | cons hd rest ih =>
    obtain ⟨a, b⟩ := hd
    by_cases hak : a = key'
    · subst hak
      simp [insertKey, lookupKey, h]
    · simp [insertKey, hak, lookupKey, ih]

lemma lookupKey_eraseKey_self (l : List (String × β)) (key : String) :
    lookupKey (eraseKey l key) key = none := by
  induction l with
  | nil => simp [eraseKey, lookupKey]
  | cons hd rest ih =>
    obtain ⟨a, b⟩ := hd
    by_cases hak : a = key
    · simpa [eraseKey, hak] using ih
    · simp [eraseKey, hak, lookupKey, ih]

lemma mem_of_lookupKey {l : List (String × β)} {key : String} {e : β}
    (h : lookupKey l key = some e) : (key, e) ∈ l := by
  induction l with
  | nil => simp [lookupKey] at h
  | cons hd rest ih =>
    obtain ⟨a, b⟩ := hd
    by_cases hak : a = key
    · subst hak
      simp [lookupKey] at h
      simp [h]
    · simp [lookupKey, hak] at h
      exact List.mem_cons_of_mem _ (ih h)

lemma lookupKey_eq_none_iff {l : List (String × β)} {key : String} :
    lookupKey l key = none ↔ key ∉ l.map Prod.fst := by
  induction l with
  | nil => simp [lookupKey]
  | cons hd rest ih =>
    obtain ⟨a, b⟩ := hd
    by_cases hak : a = key
    · simp [lookupKey, hak]
    · simp [lookupKey, hak, ih, Ne.symm hak]

lemma mem_insertKey {l : List (String × β)} {key : String} {e : β} :
    ∀ p ∈ insertKey l key e, p = (key, e) ∨ p ∈ l := by
  induction l with
  | nil =>
    intro p hp
    simp [insertKey] at hp
    exact Or.inl hp
  | cons hd rest ih =>
    obtain ⟨a, b⟩ := hd
    intro p hp
    by_cases hak : a = key
    · simp [insertKey, hak] at hp
      rcases hp with hp | hp
      · exact Or.inl hp
      · exact Or.inr (List.mem_cons_of_mem _ hp)
    · simp [insertKey, hak] at hp
      rcases hp with hp | hp
      · exact Or.inr (by simp [hp])
      · rcases ih p hp with h' | h'
        · exact Or.inl h'
        · exact Or.inr (List.mem_cons_of_mem _ h')

lemma length_insertKey_le (l : List (String × β)) (key : String) (e : β) :
    (insertKey l key e).length ≤ l.length + 1 := by
  induction l with
  | nil => simp [insertKey]
  | cons hd rest ih =>
    obtain ⟨a, b⟩ := hd
    by_cases hak : a = key
    · simp [insertKey, hak]
    · simp [insertKey, hak]
      omega

lemma mem_keys_insertKey {l : List (String × β)} {key a : String} {e : β} :
    a ∈ (insertKey l key e).map Prod.fst ↔
      a = key ∨ a ∈ l.map Prod.fst := by
  induction l with
  | nil => simp [insertKey]
  | cons hd rest ih =>
    obtain ⟨k, b⟩ := hd
    by_cases hak : k = key
    · subst hak
      simp [insertKey]
    · simp [insertKey, hak, ih]
      tauto

lemma keysNodup_insertKey {l : List (String × β)} {key : String} {e : β}
    (h : keysNodup l) : keysNodup (insertKey l key e) := by
  induction l with
  | nil => simp [insertKey, keysNodup]
  | cons hd rest ih =>
    obtain ⟨k, b⟩ := hd
    rw [keysNodup, List.map_cons, List.nodup_cons] at h
    by_cases hak : k = key
    · subst hak
      rw [show insertKey ((k, b) :: rest) k e = (k, e) :: rest by
            simp [insertKey],
          keysNodup, List.map_cons, List.nodup_cons]
      exact ⟨h.1, h.2⟩
    · rw [show insertKey ((k, b) :: rest) key e
            = (k, b) :: insertKey rest key e by simp [insertKey, hak],
          keysNodup, List.map_cons, List.nodup_cons]
      refine ⟨?_, ih h.2⟩
      intro hmem
      rcases mem_keys_insertKey.mp hmem with h' | h'
      · exact hak h'
      · exact h.1 h'

lemma mem_of_mem_eraseKey {l : List (String × β)} {key : String}
    {p : String × β} (h : p ∈ eraseKey l key) : p ∈ l := by
  induction l with
  | nil => simp [eraseKey] at h
  | cons hd rest ih =>
    obtain ⟨a, b⟩ := hd
    by_cases hak : a = key
    · simp [eraseKey, hak] at h
      exact List.mem_cons_of_mem _ (ih h)
    · simp [eraseKey, hak] at h
      rcases h with h | h
      · simp [h]
      · exact List.mem_cons_of_mem _ (ih h)

lemma length_eraseKey_le (l : List (String × β)) (key : String) :
    (eraseKey l key).length ≤ l.length := by
  induction l with
  | nil => simp [eraseKey]
  | cons hd rest ih =>
    obtain ⟨a, b⟩ := hd
    by_cases hak : a = key
    · simp [eraseKey, hak]
      omega
    · simp [eraseKey, hak]
      omega

lemma length_eraseKey_lt_of_mem {l : List (String × β)} {key : String}
    {e : β} (h : (key, e) ∈ l) : (eraseKey l key).length < l.length := by
  induction l with
  | nil => simp at h
  | cons hd rest ih =>
    obtain ⟨a, b⟩ := hd
    by_cases hak : a = key
    · simp [eraseKey, hak]
      exact Nat.lt_succ_of_le (length_eraseKey_le rest key)
    · simp only [eraseKey, hak, if_neg, ite_false, List.length_cons]
      rcases List.mem_cons.mp h with h' | h'
      · cases h'
        exact absurd rfl hak
      · have := ih h'
        omega

lemma keys_eraseKey_sub {l : List (String × β)} {key a : String}
    (h : a ∈ (eraseKey l key).map Prod.fst) : a ∈ l.map Prod.fst := by
  simp only [List.mem_map] at h ⊢
  obtain ⟨p, hp, hpa⟩ := h
  exact ⟨p, mem_of_mem_eraseKey hp, hpa⟩

lemma keysNodup_eraseKey {l : List (String × β)} {key : String}
    (h : keysNodup l) : keysNodup (eraseKey l key) := by
  induction l with
  | nil => simpa [eraseKey] using h
  | cons hd rest ih =>
    obtain ⟨a, b⟩ := hd
    rw [keysNodup, List.map_cons, List.nodup_cons] at h
    by_cases hak : a = key
    · rw [show eraseKey ((a, b) :: rest) key = eraseKey rest key by
            simp [eraseKey, hak]]
      exact ih h.2
    · rw [show eraseKey ((a, b) :: rest) key = (a, b) :: eraseKey rest key by
            simp [eraseKey, hak],
          keysNodup, List.map_cons, List.nodup_cons]
      exact ⟨fun hmem => h.1 (keys_eraseKey_sub hmem), ih h.2⟩

lemma insertKey_self_of_lookup {l : List (String × β)} {key : String}
    {e : β} (h : lookupKey l key = some e) : insertKey l key e = l := by
  induction l with
  | nil => simp [lookupKey] at h
  | cons hd rest ih =>
    obtain ⟨a, b⟩ := hd
    by_cases hak : a = key
    · subst hak
      simp [lookupKey] at h
      simp [insertKey, h]
    · simp [lookupKey, hak] at h
      simp [insertKey, hak, ih h]

lemma keys_filter_sub {l : List (String × β)} {p : String × β → Bool}
    {a : String} (h : a ∈ (l.filter p).map Prod.fst) :
    a ∈ l.map Prod.fst :=
  List.Sublist.subset (List.Sublist.map _ (List.filter_sublist l)) h

lemma lookupKey_filter_of_nodup {l : List (String × β)}
    {p : String × β → Bool} {key : String} (hnd : keysNodup l) :
    lookupKey (l.filter p) key = none ∨
    lookupKey (l.filter p) key = lookupKey l key := by
  induction l with
  | nil => simp [lookupKey]
  | cons hd rest ih =>
    obtain ⟨a, b⟩ := hd
    rw [keysNodup, List.map_cons, List.nodup_cons] at hnd
    by_cases hp : p (a, b)
    · by_cases hak : a = key
      · subst hak
        simp [List.filter_cons, hp, lookupKey]
      · simp only [List.filter_cons, hp, if_true, ite_true, lookupKey,
          hak, if_neg, ite_false]
        exact ih hnd.2
    · by_cases hak : a = key
      · subst hak
        simp only [List.filter_cons, hp, ite_false, Bool.false_eq_true,
          if_false, lookupKey, if_pos, ite_true]
        left
        rw [lookupKey_eq_none_iff]
        exact fun hmem => hnd.1 (keys_filter_sub hmem)
      · simp only [List.filter_cons, hp, ite_false, Bool.false_eq_true,
          if_false, lookupKey, hak, if_neg, ite_false]
        exact ih hnd.2

/-! ## Eviction lemmas -/

lemma findOldest_spec (l : Entries) (k : String) (t : Nat) (hk : k ≠ "")
    (hl : ∀ p ∈ l, p.1 ≠ "") :
    (findOldest l k t = k ∧ ∀ p ∈ l, t ≤ p.2.expiresAt) ∨
    (∃ e, (findOldest l k t, e) ∈ l ∧ e.expiresAt ≤ t ∧
      ∀ p ∈ l, e.expiresAt ≤ p.2.expiresAt) := by
  induction l generalizing k t with
  | nil => exact Or.inl ⟨rfl, by simp⟩
  | cons hd rest ih =>
    obtain ⟨k', e'⟩ := hd
    have hk' : k' ≠ "" := hl (k', e') (by simp)
    by_cases hlt : e'.expiresAt < t
    · rw [show findOldest ((k', e') :: rest) k t
            = findOldest rest k' e'.expiresAt by
          simp [findOldest, hk, hlt]]
      rcases ih k' e'.expiresAt hk'
          (fun p hp => hl p (List.mem_cons_of_mem _ hp)) with
        ⟨heq, hmin⟩ | ⟨e'', hmem, hle, hmin⟩
      · refine Or.inr ⟨e', by simp [heq], le_of_lt hlt, ?_⟩
        intro p hp
        rcases List.mem_cons.mp hp with h' | h'
        · subst h'; exact le_rfl
        · exact hmin p h'
      · refine Or.inr ⟨e'', List.mem_cons_of_mem _ hmem,
          le_of_lt (lt_of_le_of_lt hle hlt), ?_⟩
        intro p hp
        rcases List.mem_cons.mp hp with h' | h'
        · subst h'; exact hle
        · exact hmin p h'
    · rw [show findOldest ((k', e') :: rest) k t = findOldest rest k t by
          simp [findOldest, hk, hlt]]
      rcases ih k t hk
          (fun p hp => hl p (List.mem_cons_of_mem _ hp)) with
        ⟨heq, hmin⟩ | ⟨e'', hmem, hle, hmin⟩
      · refine Or.inl ⟨heq, ?_⟩
        intro p hp
        rcases List.mem_cons.mp hp with h' | h'
        · subst h'; exact Nat.le_of_not_lt hlt
        · exact hmin p h'
      · refine Or.inr ⟨e'', List.mem_cons_of_mem _ hmem, hle, ?_⟩
        intro p hp
        rcases List.mem_cons.mp hp with h' | h'
        · subst h'; exact le_trans hle (Nat.le_of_not_lt hlt)
        · exact hmin p h'

/-- On a non-empty map with non-empty keys, `evictOldest` deletes a key
that is present and whose entry's expiry is minimal. -/
lemma evictOldest_spec (l : Entries) (hne : l ≠ [])
    (hl : ∀ p ∈ l, p.1 ≠ "") :
    ∃ k e, (k, e) ∈ l ∧ (∀ p ∈ l, e.expiresAt ≤ p.2.expiresAt) ∧
      findOldest l "" 0 = k ∧ evictOldest l = eraseKey l k := by
  match l, hne with
  | (k1, e1) :: rest, _ =>
    have hk1 : k1 ≠ "" := hl (k1, e1) (by simp)
    have hstep : findOldest ((k1, e1) :: rest) "" 0
        = findOldest rest k1 e1.expiresAt := by
      simp [findOldest]
    rcases findOldest_spec rest k1 e1.expiresAt hk1
        (fun p hp => hl p (List.mem_cons_of_mem _ hp)) with
      ⟨heq, hmin⟩ | ⟨e'', hmem, hle, hmin⟩
    · refine ⟨k1, e1, by simp, ?_, ?_, ?_⟩
      · intro p hp
        rcases List.mem_cons.mp hp with h' | h'
        · subst h'; exact le_rfl
        · exact hmin p h'
      · rw [hstep, heq]
      · rw [evictOldest, hstep, heq, if_pos hk1]
    · have hres : findOldest ((k1, e1) :: rest) "" 0 ≠ "" := by
        rw [hstep]
        exact hl _ (List.mem_cons_of_mem _ hmem)
      refine ⟨findOldest rest k1 e1.expiresAt, e'',
        List.mem_cons_of_mem _ hmem, ?_, hstep, ?_⟩
      · intro p hp
        rcases List.mem_cons.mp hp with h' | h'
        · subst h'; exact hle
        · exact hmin p h'
      · rw [evictOldest, hstep]
        rw [hstep] at hres
        rw [if_pos hres]

/-! ## Fallback-store invariant -/

/-- The store invariant: within capacity, all keys non-empty, keys
pairwise distinct. -/
def FcInv (fc : FallbackCache) : Prop :=
  fc.entries.length ≤ fc.maxSize ∧ (∀ p ∈ fc.entries, p.1 ≠ "") ∧
  keysNodup fc.entries

lemma apply_maxSize (fc : FallbackCache) (op : FcOp) :
    (fc.apply op).maxSize = fc.maxSize := by
  cases op <;>
    simp [FallbackCache.apply, FallbackCache.set, FallbackCache.del,
      FallbackCache.sweep]

lemma FcInv_apply {fc : FallbackCache} {op : FcOp} (hcap : 1 ≤ fc.maxSize)
    (hinv : FcInv fc) (hop : op.keyOk) : FcInv (fc.apply op) := by
  obtain ⟨hlen, hkeys, hnd⟩ := hinv
  cases op with
  | set key data ttl now =>
    have hkey : key ≠ "" := hop
    rw [FallbackCache.apply, FallbackCache.set]
    by_cases hfull : fc.entries.length ≥ fc.maxSize
    · have hne : fc.entries ≠ [] := by
        intro h
        rw [h] at hfull
        simp at hfull
        omega
      obtain ⟨k, e, hmem, _, _, heq⟩ := evictOldest_spec fc.entries hne hkeys
      have hlt : (eraseKey fc.entries k).length < fc.entries.length :=
        length_eraseKey_lt_of_mem hmem
      refine ⟨?_, ?_, ?_⟩
      · simp only [if_pos hfull, heq]
        have := length_insertKey_le (eraseKey fc.entries k) key
          ⟨data, now + ttl⟩
        omega
      · simp only [if_pos hfull, heq]
        intro p hp
        rcases mem_insertKey p hp with h' | h'
        · subst h'; exact hkey
        · exact hkeys p (mem_of_mem_eraseKey h')
      · simp only [if_pos hfull, heq]
        exact keysNodup_insertKey (keysNodup_eraseKey hnd)
    · refine ⟨?_, ?_, ?_⟩
      · simp only [if_neg hfull]
        have := length_insertKey_le fc.entries key ⟨data, now + ttl⟩
        omega
      · simp only [if_neg hfull]
        intro p hp
        rcases mem_insertKey p hp with h' | h'
        · subst h'; exact hkey
        · exact hkeys p h'
      · simp only [if_neg hfull]
        exact keysNodup_insertKey hnd
  | del key =>
    refine ⟨?_, ?_, ?_⟩
    · exact le_trans (length_eraseKey_le fc.entries key) hlen
    · exact fun p hp => hkeys p (mem_of_mem_eraseKey hp)
    · exact keysNodup_eraseKey hnd
  | sweep now =>
    refine ⟨?_, ?_, ?_⟩
    · exact le_trans (List.length_filter_le _ _) hlen
    · exact fun p hp => hkeys p (List.mem_of_mem_filter hp)
    · exact List.Nodup.sublist
        (List.Sublist.map _ (List.filter_sublist fc.entries)) hnd

lemma FcInv_run {fc : FallbackCache} {ops : List FcOp}
    (hcap : 1 ≤ fc.maxSize) (hinv : FcInv fc) (hops : setKeysNonempty ops) :
    FcInv (fc.run ops) := by
  induction ops generalizing fc with
  | nil => exact hinv
  | cons op rest ih =>
    rw [FallbackCache.run, List.foldl_cons]
    have h1 : 1 ≤ (fc.apply op).maxSize := by rw [apply_maxSize]; exact hcap
    exact ih h1 (FcInv_apply hcap hinv (hops op (by simp)))
      (fun o ho => hops o (List.mem_cons_of_mem _ ho))

lemma run_maxSize (fc : FallbackCache) (ops : List FcOp) :
    (fc.run ops).maxSize = fc.maxSize := by
  induction ops generalizing fc with
  | nil => rfl
  | cons op rest ih =>
    rw [FallbackCache.run, List.foldl_cons]
    rw [show (rest.foldl FallbackCache.apply (fc.apply op))
          = (fc.apply op).run rest from rfl, ih, apply_maxSize]

lemma eraseKey_of_not_mem_keys {l : List (String × β)} {key : String}
    (h : key ∉ l.map Prod.fst) : eraseKey l key = l := by
  induction l with
  | nil => rfl
  | cons hd rest ih =>
    obtain ⟨a, b⟩ := hd
    simp only [List.map_cons, List.mem_cons] at h
    push_neg at h
    rw [show eraseKey ((a, b) :: rest) key = (a, b) :: eraseKey rest key by
          simp [eraseKey, Ne.symm h.1]]
    rw [ih h.2]

lemma length_eraseKey_nodup {l : List (String × β)} {key : String} {e : β}
    (hnd : keysNodup l) (h : (key, e) ∈ l) :
    (eraseKey l key).length + 1 = l.length := by
  induction l with
  | nil => simp at h
  | cons hd rest ih =>
    obtain ⟨a, b⟩ := hd
    rw [keysNodup, List.map_cons, List.nodup_cons] at hnd
    by_cases hak : a = key
    · subst hak
      rw [show eraseKey ((a, b) :: rest) a = eraseKey rest a by
            simp [eraseKey]]
      rw [eraseKey_of_not_mem_keys hnd.1]
      simp
    · rw [show eraseKey ((a, b) :: rest) key = (a, b) :: eraseKey rest key by
            simp [eraseKey, hak]]
      rcases List.mem_cons.mp h with h' | h'
      · cases h'
        exact absurd rfl hak
      · simp only [List.length_cons]
        rw [← ih hnd.2 h']

/-! ## Circuit-breaker lemmas -/

lemma recordFailure_const (cb : CircuitBreaker) (t : Nat) :
    (cb.recordFailure t).threshold = cb.threshold ∧
    (cb.recordFailure t).resetTimeout = cb.resetTimeout ∧
    (cb.recordFailure t).halfOpenMax = cb.halfOpenMax ∧
    (cb.recordFailure t).lastFailure = t := by
  rw [CircuitBreaker.recordFailure]
  cases h : cb.state <;> simp <;> split <;> simp

lemma recordSuccess_const (cb : CircuitBreaker) (t : Nat) :
    (cb.recordSuccess t).threshold = cb.threshold ∧
    (cb.recordSuccess t).resetTimeout = cb.resetTimeout ∧
    (cb.recordSuccess t).halfOpenMax = cb.halfOpenMax := by
  rw [CircuitBreaker.recordSuccess]
  cases h : cb.state <;> simp <;> split <;> simp

/-- A run of `RecordFailure` calls that stays strictly under the
threshold: the breaker stays Closed and just counts. -/
lemma afterFailures_closed (ts : List Nat) :
    ∀ cb : CircuitBreaker, cb.state = .closed →
      cb.failures + ts.length < cb.threshold →
      (cb.afterFailures ts).state = .closed ∧
      (cb.afterFailures ts).failures = cb.failures + ts.length ∧
      (cb.afterFailures ts).threshold = cb.threshold ∧
      (cb.afterFailures ts).resetTimeout = cb.resetTimeout := by
  induction ts with
  | nil =>
    intro cb h1 _
    exact ⟨h1, by simp [CircuitBreaker.afterFailures], rfl, rfl⟩
  | cons t rest ih =>
    intro cb h1 h2
    have hstep : cb.recordFailure t
        = { cb with lastFailure := t, failures := cb.failures + 1 } := by
      rw [CircuitBreaker.recordFailure]
      simp only [h1]
      rw [if_neg (by simp at h2 ⊢; omega)]
    rw [show cb.afterFailures (t :: rest)
          = (cb.recordFailure t).afterFailures rest from rfl, hstep]
    obtain ⟨a, b, c, d⟩ :=
      ih { cb with lastFailure := t, failures := cb.failures + 1 }
        (by simp [h1]) (by simp at h2 ⊢; omega)
    refine ⟨a, ?_, c, d⟩
    simp only [b]
    simp
    omega

/-- One more failure at the threshold opens the breaker. -/
lemma recordFailure_opens (cb : CircuitBreaker) (t : Nat)
    (h1 : cb.state = .closed) (h2 : cb.failures + 1 ≥ cb.threshold) :
    (cb.recordFailure t).state = .opened ∧
    (cb.recordFailure t).lastFailure = t ∧
    (cb.recordFailure t).resetTimeout = cb.resetTimeout := by
  rw [CircuitBreaker.recordFailure]
  simp only [h1]
  rw [if_pos (by simpa using h2)]
  exact ⟨rfl, rfl, rfl⟩

/-- `Allow` on an Open breaker before the reset timeout has elapsed:
refuse and leave the breaker untouched. -/
lemma allow_opened_early (cb : CircuitBreaker) (t : Nat)
    (h1 : cb.state = .opened)
    (h2 : t ≤ cb.lastFailure + cb.resetTimeout) :
    cb.allow t = (false, cb) := by
  rw [CircuitBreaker.allow]
  simp only [h1]
  rw [if_neg (by omega)]

/-- A run of `RecordSuccess` calls in HalfOpen that stays strictly under
`halfOpenMax`: the breaker stays HalfOpen and just counts. -/
lemma afterSuccesses_halfOpen (ts : List Nat) :
    ∀ cb : CircuitBreaker, cb.state = .halfOpen →
      cb.successes + ts.length < cb.halfOpenMax →
      (cb.afterSuccesses ts).state = .halfOpen ∧
      (cb.afterSuccesses ts).successes = cb.successes + ts.length ∧
      (cb.afterSuccesses ts).halfOpenMax = cb.halfOpenMax := by
  induction ts with
  | nil =>
    intro cb h1 _
    exact ⟨h1, by simp [CircuitBreaker.afterSuccesses], rfl⟩
  | cons t rest ih =>
    intro cb h1 h2
    have hstep : cb.recordSuccess t
        = { cb with successes := cb.successes + 1 } := by
      rw [CircuitBreaker.recordSuccess]
      simp only [h1]
      rw [if_neg (by simp at h2 ⊢; omega)]
    rw [show cb.afterSuccesses (t :: rest)
          = (cb.recordSuccess t).afterSuccesses rest from rfl, hstep]
    obtain ⟨a, b, c⟩ := ih { cb with successes := cb.successes + 1 }
      (by simp [h1]) (by simp at h2 ⊢; omega)
    refine ⟨a, ?_, c⟩
    simp only [b]
    simp
    omega

/-- One more success at `halfOpenMax` closes the breaker and clears the
failure count. -/
lemma recordSuccess_closes (cb : CircuitBreaker) (t : Nat)
    (h1 : cb.state = .halfOpen)
    (h2 : cb.successes + 1 ≥ cb.halfOpenMax) :
    (cb.recordSuccess t).state = .closed ∧
    (cb.recordSuccess t).failures = 0 := by
  rw [CircuitBreaker.recordSuccess]
  simp only [h1]
  rw [if_pos (by simpa using h2)]
  exact ⟨rfl, rfl⟩

/-! ## Cache-facade lemmas -/

/-- Reading back the key just written, before its expiry, yields the
written bytes (eviction happens before the insert, so the fresh entry is
never the victim). -/
lemma get_set_self (fc : FallbackCache) (key : String) (data : Bytes)
    (ttl now t : Nat) (h : t ≤ now + ttl) :
    (fc.set key data ttl now).get key t = some data := by
  simp only [FallbackCache.get, FallbackCache.set, lookupKey_insertKey_self]
  rw [if_neg (by omega)]

/-- `Cache.Set` always installs the value in the fallback store, with the
default expiration substituted for a zero ttl. -/
lemma set_fallback_eq (st : CacheState) (key : String) (data : Bytes)
    (expiration now : Nat) (remoteFails : Bool) :
    (st.set key data expiration now remoteFails).2.fallback
      = st.fallback.set key data
          (if expiration = 0 then defaultExpiration else expiration) now := by
  rcases hA : st.cb.allow now with ⟨allowed, cb1⟩
  simp only [CacheState.set, hA]
  cases allowed <;> cases remoteFails <;> simp

/-- The `select` in `enqueue` has exactly three reachable branches. -/
lemma selectEnqueue_cases (c : GuildContext) (event : GuildEvent)
    (race : Bool) :
    (selectEnqueue c event race).1 = .delivered
    ∨ (selectEnqueue c event race).1 = .droppedCancelled
    ∨ (selectEnqueue c event race).1 = .droppedFull := by
  rw [selectEnqueue]
  split_ifs <;> simp

/-- With the channel at capacity the send case is never ready: the event
is dropped and the context is untouched. -/
lemma selectEnqueue_full (c : GuildContext) (event : GuildEvent)
    (race : Bool) (h : c.events.length = c.eventsCap) :
    (selectEnqueue c event race).1 ≠ .delivered
    ∧ (selectEnqueue c event race).2 = c := by
  rw [selectEnqueue]
  have hns : ¬ c.events.length < c.eventsCap := by omega
  by_cases hc : c.cancelled <;> simp [hns, hc]

/-! ## Claim theorems -/

/-- C2: starting from Closed with zero failures, a sequence of
`RecordFailure` calls whose length equals the configured threshold opens
the breaker exactly once — every proper prefix leaves it Closed and the
full sequence leaves it Open — and afterwards every `Allow` call made
before the reset timeout has elapsed since the last failure returns false
and leaves the breaker unchanged. -/
theorem C2_threshold_opens (cb0 : CircuitBreaker) (ts : List Nat) (tk : Nat)
    (hstate : cb0.state = .closed) (hf : cb0.failures = 0)
    (hlen : ts.length + 1 = cb0.threshold) :
    (∀ i ≤ ts.length,
      (cb0.afterFailures ((ts ++ [tk]).take i)).state = .closed)
    ∧ (cb0.afterFailures (ts ++ [tk])).state = .opened
    ∧ (cb0.afterFailures (ts ++ [tk])).lastFailure = tk
    ∧ (∀ t, t ≤ tk + cb0.resetTimeout →
        (cb0.afterFailures (ts ++ [tk])).allow t
          = (false, cb0.afterFailures (ts ++ [tk]))) := by
  obtain ⟨hc, hfc, hth, hrt⟩ := afterFailures_closed ts cb0 hstate
    (by omega)
  have hfin : cb0.afterFailures (ts ++ [tk])
      = (cb0.afterFailures ts).recordFailure tk := by
    rw [CircuitBreaker.afterFailures, List.foldl_append]
    rfl
  obtain ⟨ho, hlf, hrt2⟩ := recordFailure_opens (cb0.afterFailures ts) tk hc
    (by omega)
  refine ⟨?_, ?_, ?_, ?_⟩
  · intro i hi
    rw [List.take_append_of_le_length hi]
    exact (afterFailures_closed (ts.take i) cb0 hstate
      (by rw [List.length_take]; omega)).1
  · rw [hfin]; exact ho
  · rw [hfin]; exact hlf
  · intro t ht
    rw [hfin]
    exact allow_opened_early _ t ho (by rw [hlf, hrt2, hrt]; omega)

/-- C2 witness: five failures at threshold 5 open the breaker; `Allow` at
one tick past the last failure but within the 30-tick reset timeout
refuses. -/
theorem C2_threshold_opens_witness :
    ((newCircuitBreaker 5 30).afterFailures ([0, 0, 0, 0] ++ [1])).allow 31
      = (false, (newCircuitBreaker 5 30).afterFailures ([0, 0, 0, 0] ++ [1])) :=
  (C2_threshold_opens (newCircuitBreaker 5 30) [0, 0, 0, 0] 1 rfl rfl
    (by decide)).2.2.2 31 (by decide)

/-- C3: once the reset timeout has elapsed, the first `Allow` call on an
Open breaker moves it to HalfOpen with a cleared success count and
returns true; from HalfOpen with zero successes, exactly `halfOpenMax`
consecutive `RecordSuccess` calls close the breaker (every proper prefix
leaves it HalfOpen) and clear the failure count; a single `RecordFailure`
in HalfOpen reopens it; and `Allow` in HalfOpen returns true exactly when
the success count is below `halfOpenMax`, without changing the state. -/
theorem C3_halfopen_protocol :
    (∀ (cb : CircuitBreaker) (t : Nat), cb.state = .opened →
      cb.lastFailure + cb.resetTimeout < t →
      cb.allow t = (true, { cb with state := .halfOpen, successes := 0,
                                    lastStateChange := t }))
    ∧ (∀ (cb : CircuitBreaker) (ts : List Nat) (tm : Nat),
        cb.state = .halfOpen → cb.successes = 0 →
        ts.length + 1 = cb.halfOpenMax →
        ((∀ i ≤ ts.length,
            (cb.afterSuccesses ((ts ++ [tm]).take i)).state = .halfOpen)
         ∧ (cb.afterSuccesses (ts ++ [tm])).state = .closed
         ∧ (cb.afterSuccesses (ts ++ [tm])).failures = 0))
    ∧ (∀ (cb : CircuitBreaker) (t : Nat), cb.state = .halfOpen →
        (cb.recordFailure t).state = .opened)
    ∧ (∀ (cb : CircuitBreaker) (t : Nat), cb.state = .halfOpen →
        (((cb.allow t).1 = true ↔ cb.successes < cb.halfOpenMax)
         ∧ (cb.allow t).2 = cb)) := by
  refine ⟨?_, ?_, ?_, ?_⟩
  · intro cb t h1 h2
    rw [CircuitBreaker.allow]
    simp only [h1]
    rw [if_pos (by omega)]
  · intro cb ts tm h1 h2 h3
    obtain ⟨hh, hsc, hmx⟩ := afterSuccesses_halfOpen ts cb h1 (by omega)
    have hfin : cb.afterSuccesses (ts ++ [tm])
        = (cb.afterSuccesses ts).recordSuccess tm := by
      rw [CircuitBreaker.afterSuccesses, List.foldl_append]
      rfl
    obtain ⟨hcl, hf0⟩ := recordSuccess_closes (cb.afterSuccesses ts) tm hh
      (by omega)
    refine ⟨?_, ?_, ?_⟩
    · intro i hi
      rw [List.take_append_of_le_length hi]
      exact (afterSuccesses_halfOpen (ts.take i) cb h1
        (by rw [List.length_take]; omega)).1
    · rw [hfin]; exact hcl
    · rw [hfin]; exact hf0
  · intro cb t h1
    simp [CircuitBreaker.recordFailure, h1]
  · intro cb t h1
    rw [CircuitBreaker.allow]
    simp only [h1]
    simp

/-- C3 witness: a HalfOpen breaker with `halfOpenMax = 3` closes after
three consecutive successes. -/
theorem C3_halfopen_protocol_witness :
    (({ newCircuitBreaker 5 30 with state := CircuitState.halfOpen }
        : CircuitBreaker).afterSuccesses ([1, 2] ++ [3])).state
      = CircuitState.closed :=
  (C3_halfopen_protocol.2.1
    { newCircuitBreaker 5 30 with state := CircuitState.halfOpen }
    [1, 2] 3 rfl rfl (by decide)).2.1

/-- C4 fails exactly as stated: the eviction scan uses `""` as a
no-candidate sentinel, so when the empty string is itself a stored key
and holds the earliest expiry, `evictOldest` deletes nothing and the
insert pushes the store over its configured capacity. -/
theorem C4_capacity_cex :
    ¬ ((newFallbackCache 1).run
        [FcOp.set "" [1] 1 0, FcOp.set "a" [2] 2 0]).entries.length ≤ 1 := by
  decide

/-- C4 (amended): provided the empty string is never used as a key and
the capacity is at least 1, the store never exceeds its capacity under
any operation sequence; a `Set` on a full store (with non-empty, distinct
keys) first removes exactly one entry, one with the earliest expiry among
all current entries, before inserting; and the concrete capacity-2
scenario A(ttl 1), B(ttl 10), C(ttl 5) evicts A and ends with exactly
{B, C}. -/
theorem C4_capacity_amended :
    (∀ (cap : Nat) (ops : List FcOp), 1 ≤ cap → setKeysNonempty ops →
      ((newFallbackCache cap).run ops).entries.length ≤ cap)
    ∧ (∀ (fc : FallbackCache) (key : String) (data : Bytes) (ttl now : Nat),
        fc.entries.length = fc.maxSize → 1 ≤ fc.maxSize →
        (∀ p ∈ fc.entries, p.1 ≠ "") → keysNodup fc.entries →
        ∃ k e, (k, e) ∈ fc.entries
          ∧ (∀ p ∈ fc.entries, e.expiresAt ≤ p.2.expiresAt)
          ∧ (fc.set key data ttl now).entries
              = insertKey (eraseKey fc.entries k) key
                  { data := data, expiresAt := now + ttl }
          ∧ (eraseKey fc.entries k).length + 1 = fc.entries.length)
    ∧ (((newFallbackCache 2).set "A" [1] 1 0 |>.set "B" [2] 10 0
          |>.set "C" [3] 5 0).entries
        = [("B", { data := [2], expiresAt := 10 }),
           ("C", { data := [3], expiresAt := 5 })]) := by
  refine ⟨?_, ?_, by decide⟩
  · intro cap ops hcap hops
    have hinv : FcInv (newFallbackCache cap) :=
      ⟨by simp [newFallbackCache], by simp [newFallbackCache],
       by simp [newFallbackCache, keysNodup]⟩
    have hrun : FcInv ((newFallbackCache cap).run ops) :=
      FcInv_run hcap hinv hops
    have := hrun.1
    rwa [run_maxSize] at this
  · intro fc key data ttl now hfull hcap hkeys hnd
    have hne : fc.entries ≠ [] := by
      intro h
      rw [h] at hfull
      simp at hfull
      omega
    obtain ⟨k, e, hmem, hmin, _, heq⟩ := evictOldest_spec fc.entries hne hkeys
    refine ⟨k, e, hmem, hmin, ?_, length_eraseKey_nodup hnd hmem⟩
    simp only [FallbackCache.set, if_pos (by omega : fc.entries.length ≥ fc.maxSize), heq]

/-- C4 witness: the invariant bound evaluated on the scenario's operation
sequence at capacity 2. -/
theorem C4_capacity_witness :
    ((newFallbackCache 2).run
      [FcOp.set "A" [1] 1 0, FcOp.set "B" [2] 10 0,
       FcOp.set "C" [3] 5 0]).entries.length ≤ 2 :=
  C4_capacity_amended.1 2
    [FcOp.set "A" [1] 1 0, FcOp.set "B" [2] 10 0, FcOp.set "C" [3] 5 0]
    (by decide) (by decide)

/-- C5: the claim says one monitor tick leaves the tenant queue
unchanged, but the tick's scan loop performs real receives: on a queue
holding one event the tick empties the queue. -/
theorem C5_monitor_drains :
    (monitorTick { cancelled := false, events := [{ id := 0 }],
                   eventsCap := 1000, relay := [], relayCap := 500 }).events
        = []
    ∧ ({ cancelled := false, events := [{ id := 0 }], eventsCap := 1000,
         relay := [], relayCap := 500 } : GuildContext).events
        = [{ id := 0 }] := by
  constructor
  · decide
  · rfl

/-- C8: the claim says every installed context has a 1000-capacity event
queue and 500-capacity relay queue. Contexts created by `ensure` do, but
every context installed by `register` has both channels unbuffered
(capacity 0). -/
theorem C8_register_unbuffered :
    (lookupKey (Bot.ensure [] "g").2 "g"
      = some { cancelled := false, events := [], eventsCap := 1000,
               relay := [], relayCap := 500 })
    ∧ (∀ (contexts : Registry) (gid : String),
        lookupKey (Bot.register contexts gid) gid
          = some { cancelled := false, events := [], eventsCap := 0,
                   relay := [], relayCap := 0 }) := by
  constructor
  · rfl
  · intro contexts gid
    exact lookupKey_insertKey_self contexts gid _

/-- C9: an entry whose expiry instant is strictly in the past reads as
not-found, whether or not the background sweep has run since it
expired. -/
theorem C9_lazy_expiry (fc : FallbackCache) (key : String)
    (e : FallbackEntry) (t ts : Nat)
    (hmem : lookupKey fc.entries key = some e) (hexp : e.expiresAt < t)
    (hnd : keysNodup fc.entries) :
    fc.get key t = none ∧ (fc.sweep ts).get key t = none := by
  constructor
  · simp [FallbackCache.get, hmem, hexp]
  · have hd : lookupKey (fc.sweep ts).entries key = none
        ∨ lookupKey (fc.sweep ts).entries key = lookupKey fc.entries key := by
      simp only [FallbackCache.sweep]
      exact lookupKey_filter_of_nodup hnd
    rcases hd with hd | hd
    · simp [FallbackCache.get, hd]
    · rw [hmem] at hd
      simp [FallbackCache.get, hd, hexp]

/-- C9 witness: an entry expired at tick 5 is unreadable at tick 6, with
or without an intervening sweep at tick 100. -/
theorem C9_lazy_expiry_witness :
    FallbackCache.get
        { entries := [("k", { data := [1], expiresAt := 5 })],
          maxSize := 10 } "k" 6 = none
    ∧ (FallbackCache.sweep
        { entries := [("k", { data := [1], expiresAt := 5 })],
          maxSize := 10 } 100).get "k" 6 = none :=
  C9_lazy_expiry
    { entries := [("k", { data := [1], expiresAt := 5 })], maxSize := 10 }
    "k" { data := [1], expiresAt := 5 } 6 100 (by decide) (by decide)
    (by decide)

/-- C10: `Get` on an expired entry reports it absent yet mutates nothing —
the entry still occupies its slot — and while it remains the strictly
earliest-expiring entry of a full store it is exactly the victim the next
`Set` evicts. -/
theorem C10_expired_occupies (fc : FallbackCache) (key : String)
    (e : FallbackEntry) (t : Nat)
    (hmem : lookupKey fc.entries key = some e) (hexp : e.expiresAt < t) :
    fc.getM key t = (none, fc)
    ∧ lookupKey (fc.getM key t).2.entries key = some e
    ∧ (∀ (key' : String) (data : Bytes) (ttl now : Nat),
        fc.entries.length ≥ fc.maxSize →
        (∀ p ∈ fc.entries, p.1 ≠ "") → keysNodup fc.entries →
        (∀ p ∈ fc.entries, p.1 ≠ key → e.expiresAt < p.2.expiresAt) →
        key' ≠ key →
        lookupKey (fc.set key' data ttl now).entries key = none) := by
  refine ⟨?_, ?_, ?_⟩
  · simp [FallbackCache.getM, FallbackCache.get, hmem, hexp]
  · simpa [FallbackCache.getM] using hmem
  · intro key' data ttl now hfull hkeys hnd hstrict hne
    have hner : fc.entries ≠ [] := by
      intro h
      rw [h] at hmem
      simp [lookupKey] at hmem
    obtain ⟨k, e', hmem', hmin', _, heq⟩ :=
      evictOldest_spec fc.entries hner hkeys
    have hkk : k = key := by
      by_contra hkk
      have h1 : e.expiresAt < e'.expiresAt := hstrict (k, e') hmem' hkk
      have h2 : e'.expiresAt ≤ e.expiresAt :=
        hmin' (key, e) (mem_of_lookupKey hmem)
      omega
    rw [hkk] at heq
    simp only [FallbackCache.set, if_pos hfull, heq]
    rw [lookupKey_insertKey_ne _ _ hne]
    exact lookupKey_eraseKey_self fc.entries key

/-- C10 witness: in a full capacity-2 store whose expired entry "a" has
the earliest expiry, the next `Set` of a fresh key evicts "a". -/
theorem C10_expired_occupies_witness :
    lookupKey ((FallbackCache.set
        { entries := [("a", { data := [1], expiresAt := 5 }),
                      ("b", { data := [2], expiresAt := 9 })],
          maxSize := 2 } "c" [3] 7 0)).entries "a" = none :=
  (C10_expired_occupies
    { entries := [("a", { data := [1], expiresAt := 5 }),
                  ("b", { data := [2], expiresAt := 9 })], maxSize := 2 }
    "a" { data := [1], expiresAt := 5 } 6 (by decide) (by decide)).2.2
    "c" [3] 7 0 (by decide) (by decide) (by decide) (by decide) (by decide)

/-- C7: `Cache.Set` always writes the fallback store first, using the
default TTL when the given expiration is zero; when the breaker refuses
it reports success without touching the remote path; otherwise a remote
failure is recorded on the breaker and surfaced to the caller even though
the fallback already holds the value, and a remote success is recorded
and reported as success. -/
theorem C7_set_error_handling (st : CacheState) (key : String)
    (data : Bytes) (expiration now : Nat) (remoteFails : Bool) :
    ((st.set key data expiration now remoteFails).2.fallback
      = st.fallback.set key data
          (if expiration = 0 then defaultExpiration else expiration) now)
    ∧ ((st.cb.allow now).1 = false →
        st.set key data expiration now remoteFails
          = (Except.ok (),
             { cb := (st.cb.allow now).2,
               fallback := st.fallback.set key data
                 (if expiration = 0 then defaultExpiration else expiration)
                 now }))
    ∧ ((st.cb.allow now).1 = true → remoteFails = true →
        st.set key data expiration now remoteFails
          = (Except.error CacheError.remote,
             { cb := ((st.cb.allow now).2).recordFailure now,
               fallback := st.fallback.set key data
                 (if expiration = 0 then defaultExpiration else expiration)
                 now }))
    ∧ ((st.cb.allow now).1 = true → remoteFails = false →
        st.set key data expiration now remoteFails
          = (Except.ok (),
             { cb := ((st.cb.allow now).2).recordSuccess now,
               fallback := st.fallback.set key data
                 (if expiration = 0 then defaultExpiration else expiration)
                 now })) := by
  rcases hA : st.cb.allow now with ⟨allowed, cb1⟩
  simp only [CacheState.set, hA]
  cases allowed <;> cases remoteFails <;> simp

/-- C7 witness: on the fresh (Closed-breaker) cache a set with zero ttl
and a healthy remote records a success and installs the default-TTL
fallback entry. -/
theorem C7_set_error_handling_witness :
    newCacheState.set "k" [7] 0 0 false
      = (Except.ok (),
         { cb := ((newCacheState.cb.allow 0).2).recordSuccess 0,
           fallback := newCacheState.fallback.set "k" [7]
             (if 0 = 0 then defaultExpiration else 0) 0 }) :=
  (C7_set_error_handling newCacheState "k" [7] 0 0 false).2.2.2 rfl rfl

/-- C1: `Set` followed immediately by `Get` of the same key returns the
written bytes even when every remote call fails (`Set`'s remote write
errors and `Get`'s remote read returns key-absent or an error), for any
starting breaker/fallback state, as long as the effective ttl has not
elapsed between the two calls: the fallback store satisfies the read. -/
theorem C1_set_get_fallback (st : CacheState) (key : String) (data : Bytes)
    (ttl t0 t1 : Nat) (remote : RemoteGet) (_hne : data ≠ [])
    (hfail : remote = RemoteGet.nilErr ∨ remote = RemoteGet.failErr)
    (httl : t1 ≤ t0 + (if ttl = 0 then defaultExpiration else ttl)) :
    (((st.set key data ttl t0 true).2).get key t1 remote).1
      = Except.ok data := by
  have hfb : (st.set key data ttl t0 true).2.fallback
      = st.fallback.set key data
          (if ttl = 0 then defaultExpiration else ttl) t0 :=
    set_fallback_eq st key data ttl t0 true
  have hget : (st.set key data ttl t0 true).2.fallback.get key t1
      = some data := by
    rw [hfb]
    exact get_set_self _ _ _ _ _ _ httl
  rcases hA : (st.set key data ttl t0 true).2.cb.allow t1 with ⟨allowed, cb1⟩
  rcases hfail with rfl | rfl <;> cases allowed <;>
    simp [CacheState.get, hA, hget]

/-- C1 witness: on the fresh cache with a failing remote, a set of key
"k" at tick 0 with ttl 5 followed by a get at tick 3 yields the written
bytes. -/
theorem C1_set_get_fallback_witness :
    (((newCacheState.set "k" [7] 5 0 true).2).get "k" 3
        RemoteGet.failErr).1 = Except.ok [7] :=
  C1_set_get_fallback newCacheState "k" [7] 5 0 3 RemoteGet.failErr
    (by decide) (Or.inr rfl) (by decide)

/-- C6: for an event whose target tenant is registered, `enqueue` is a
total, non-blocking step with exactly three outcomes — delivered,
dropped-because-cancelled, dropped-because-full — and its return type
carries no error; in particular with the queue at capacity the event is
not delivered and the registry (hence the queue) is left exactly as it
was. -/
theorem C6_enqueue_outcomes (contexts : Registry) (guildID : String)
    (event : GuildEvent) (race : Bool) (c : GuildContext)
    (hres : lookupKey contexts guildID = some c) :
    ((Bot.enqueue contexts guildID event race).1 = EnqueueOutcome.delivered
     ∨ (Bot.enqueue contexts guildID event race).1
         = EnqueueOutcome.droppedCancelled
     ∨ (Bot.enqueue contexts guildID event race).1
         = EnqueueOutcome.droppedFull)
    ∧ (c.events.length = c.eventsCap →
        (Bot.enqueue contexts guildID event race).1
            ≠ EnqueueOutcome.delivered
        ∧ (Bot.enqueue contexts guildID event race).2 = contexts) := by
  rcases hS : selectEnqueue c event race with ⟨out, c'⟩
  have henq : Bot.enqueue contexts guildID event race
      = (out, insertKey contexts guildID c') := by
    simp [Bot.enqueue, hres, hS]
  constructor
  · have := selectEnqueue_cases c event race
    rw [hS] at this
    rw [henq]
    exact this
  · intro hcap
    obtain ⟨hnd, hid⟩ := selectEnqueue_full c event race hcap
    rw [hS] at hnd hid
    refine ⟨by rw [henq]; exact hnd, ?_⟩
    have hid' : c' = c := hid
    rw [henq, hid']
    exact insertKey_self_of_lookup hres

/-- C6 witness: a registered tenant whose 1-capacity queue is full — the
enqueue drops the event and the registry is untouched. -/
theorem C6_enqueue_outcomes_witness :
    (Bot.enqueue [("g", ⟨false, [⟨0⟩], 1, [], 0⟩)] "g" ⟨1⟩ false).1
        ≠ EnqueueOutcome.delivered
    ∧ (Bot.enqueue [("g", ⟨false, [⟨0⟩], 1, [], 0⟩)] "g" ⟨1⟩ false).2
        = [("g", ⟨false, [⟨0⟩], 1, [], 0⟩)] :=
  (C6_enqueue_outcomes [("g", ⟨false, [⟨0⟩], 1, [], 0⟩)] "g" ⟨1⟩ false
    ⟨false, [⟨0⟩], 1, [], 0⟩ (by decide)).2 (by decide)

end Recast
